import Mathlib

/-
Verification of the Monte Carlo four-point simulation
(src/src/main.py and the equivalent src/Project 1/monte_carlo_simulation.py).

Modelling conventions:
* Python floats are modelled as elements of a linear ordered field `K`
  (instantiated with `ℝ` for the geometric claims, `ℚ` for executable
  witnesses).  `math.sqrt` is `Real.sqrt`, so the sampler lives over `ℝ`.
* The ambient random state of Python's `random` module is injected
  explicitly: the pool sampler outputs become a stream `pts : ℕ → Point2D K`
  and the choices made by `random.sample(points, k=4)` become a stream
  `sel : ℕ → Fin 4 → ℕ` of indices into the pool (taken modulo the pool
  size).  `random.sample` raises `ValueError` when the population is
  smaller than 4; this is the `SimError.sampleLargerThanPopulation` case.
* Fallible code returns `Except`.
-/

namespace MonteCarlo

/-- 2D point with two coordinates, from `Point2D` in main.py
(raw pairs in monte_carlo_simulation.py). -/
@[ext]
structure Point2D (K : Type) where
  x : K
  y : K
deriving DecidableEq

variable {K : Type} [LinearOrderedField K]

/-- Source translation of `sign(num)` from main.py: 1 for positive,
-1 for negative, 0 for zero. -/
def sign (num : K) : ℤ :=
  if num > 0 then 1 else if num < 0 then -1 else 0

/-- The discriminant computed inside `orientation` in main.py
(variable `disc`): the 2D cross product
`(A.x - C.x) * (B.y - C.y) - (A.y - C.y) * (B.x - C.x)`. -/
def disc (point_a point_b point_c : Point2D K) : K :=
  (point_a.x - point_c.x) * (point_b.y - point_c.y) -
    (point_a.y - point_c.y) * (point_b.x - point_c.x)

/-- Source translation of `orientation(point_a, point_b, point_c)`
from main.py (`ccw` in monte_carlo_simulation.py). -/
def orientation (point_a point_b point_c : Point2D K) : ℤ :=
  sign (disc point_a point_b point_c)

/-- Source translation of `classify_points(point_a, point_b, point_c, point_d)`:
the product of the four orientation tests. -/
def classify_points (point_a point_b point_c point_d : Point2D K) : ℤ :=
  orientation point_a point_b point_c *
    orientation point_a point_b point_d *
    orientation point_a point_c point_d *
    orientation point_b point_c point_d

/-- Source translation of `sample_triangle_points(point_a, point_b, point_c)`
from main.py (`tri_sample` in monte_carlo_simulation.py).  The two ambient
`random.random()` values are injected as `r1`, `r2`. -/
noncomputable def sample_triangle_points (point_a point_b point_c : Point2D ℝ)
    (r1 r2 : ℝ) : Point2D ℝ :=
  let s1 : ℝ := Real.sqrt r1
  { x := point_a.x * (1 - s1) + point_b.x * (1 - r2) * s1 + point_c.x * r2 * s1
    y := point_a.y * (1 - s1) + point_b.y * (1 - r2) * s1 + point_c.y * r2 * s1 }

/-- Runtime failures of the simulation loop.  `random.sample(points, k=4)`
raises `ValueError: Sample larger than population or is negative` when the
pool has fewer than 4 elements. -/
inductive SimError where
  | sampleLargerThanPopulation : SimError
deriving DecidableEq

/-- The argparse `Namespace` built in `__main__` of main.py:
`--num` (the iteration count N), `--verbose` and `--seed`
(both plain `store_true` boolean flags). -/
structure Namespace where
  num : ℕ
  verbose : Bool
  seed : Bool
deriving DecidableEq

/-- The 4 pool elements picked at one iteration, given the injected index
choices (reduced modulo the pool size, so the selection is total; the
guard in `sample4` mirrors the `ValueError` of `random.sample`). -/
def pick4 (pool : List (Point2D K)) (choice : Fin 4 → ℕ) :
    Point2D K × Point2D K × Point2D K × Point2D K :=
  (pool.getD (choice 0 % pool.length) ⟨0, 0⟩,
   pool.getD (choice 1 % pool.length) ⟨0, 0⟩,
   pool.getD (choice 2 % pool.length) ⟨0, 0⟩,
   pool.getD (choice 3 % pool.length) ⟨0, 0⟩)

/-- Model of `random.sample(points, k=4)`: fails exactly when the pool has
fewer than 4 elements, otherwise returns the 4 chosen elements. -/
def sample4 (pool : List (Point2D K)) (choice : Fin 4 → ℕ) :
    Except SimError (Point2D K × Point2D K × Point2D K × Point2D K) :=
  if pool.length < 4 then .error .sampleLargerThanPopulation
  else .ok (pick4 pool choice)

/-- The `while total_cnt < args.num` loop of `simulate` in main.py,
written with the remaining iteration count `rem := args.num - total_cnt`
as fuel.  State: `quad_cnt`, `total_cnt`, accumulated `results`. -/
def simulateLoop (pool : List (Point2D K)) (sel : ℕ → Fin 4 → ℕ) :
    ℕ → ℕ → ℕ → List K → Except SimError (List K)
  | 0, _, _, results => .ok results
  | rem + 1, quad_cnt, total_cnt, results =>
    match sample4 pool (sel total_cnt) with
    | .error e => .error e
    | .ok (point_a, point_b, point_c, point_d) =>
      let total_cnt' := total_cnt + 1
      let quad_cnt' :=
        if classify_points point_a point_b point_c point_d = 1
        then quad_cnt + 1 else quad_cnt
      simulateLoop pool sel rem quad_cnt' total_cnt'
        (results ++ [(quad_cnt' : K) / (total_cnt' : K)])

/-- Source translation of `simulate(args)` from main.py
(`monte_carlo_simulation(N)` in monte_carlo_simulation.py): build a pool of
`args.num` sampled points, then run the estimation loop `args.num` times.
The sampler outputs are the injected stream `pts`, the `random.sample`
index choices are the injected stream `sel`; `args.seed` and `args.verbose`
are never consulted, exactly as in the source. -/
def simulate (args : Namespace) (pts : ℕ → Point2D K) (sel : ℕ → Fin 4 → ℕ) :
    Except SimError (List K) :=
  let points : List (Point2D K) := (List.range args.num).map pts
  simulateLoop points sel args.num 0 0 []

/-- The pool built by `simulate` before the loop starts. -/
def poolOf (args : Namespace) (pts : ℕ → Point2D K) : List (Point2D K) :=
  (List.range args.num).map pts

/-- The classification result of the draw performed at iteration `t`
(0-indexed) of the loop. -/
def classifyDraw (pool : List (Point2D K)) (sel : ℕ → Fin 4 → ℕ) (t : ℕ) : ℤ :=
  (fun q : Point2D K × Point2D K × Point2D K × Point2D K =>
    classify_points q.1 q.2.1 q.2.2.1 q.2.2.2) (pick4 pool (sel t))

/-- Number of draws among the first `m` draws whose classification is +1
(the running numerator `quad_cnt`). -/
def quadCountFirst (pool : List (Point2D K)) (sel : ℕ → Fin 4 → ℕ) (m : ℕ) : ℕ :=
  (List.range m).countP (fun j => decide (classifyDraw pool sel j = 1))

/-- The running estimate sequence produced by a successful run. -/
def runEstimates (args : Namespace) (pts : ℕ → Point2D K)
    (sel : ℕ → Fin 4 → ℕ) : List K :=
  (List.range args.num).map
    (fun j => (quadCountFirst (poolOf args pts) sel (j + 1) : K) /
      ((j + 1 : ℕ) : K))

/-- Concrete sampler-output stream: the four corners of the unit square
(a convex configuration), then repeats of the last corner. -/
def ptsSquare : ℕ → Point2D ℚ := fun n =>
  if n = 0 then ⟨0, 0⟩ else if n = 1 then ⟨1, 0⟩ else if n = 2 then ⟨1, 1⟩
  else ⟨0, 1⟩

/-- Concrete sampler-output stream: three triangle corners and one point
strictly inside (a triangle configuration). -/
def ptsTriangleConfig : ℕ → Point2D ℚ := fun n =>
  if n = 0 then ⟨0, 0⟩ else if n = 1 then ⟨4, 0⟩ else if n = 2 then ⟨4, 4⟩
  else ⟨2, 1⟩

/-- Concrete draw-selection stream: the identity selection (a permutation
`random.sample` can return). -/
def selId : ℕ → Fin 4 → ℕ := fun _ i => i.val

/- ------------------------------------------------------------------
Spec-side geometric vocabulary (from the spec's words, independent of the
orientation computation): convex combinations, closed triangles, strict
interiors, collinearity via a common line, segments, hull shapes.
------------------------------------------------------------------ -/

/-- The affine combination `α•X + β•Y + γ•Z` of three points. -/
def combo3 (α β γ : K) (X Y Z : Point2D K) : Point2D K :=
  ⟨α * X.x + β * Y.x + γ * Z.x, α * X.y + β * Y.y + γ * Z.y⟩

/-- `P` lies in the closed triangle (convex hull) of `X`, `Y`, `Z`:
a convex combination with nonnegative weights. -/
def inClosedTri (P X Y Z : Point2D K) : Prop :=
  ∃ α β γ : K, 0 ≤ α ∧ 0 ≤ β ∧ 0 ≤ γ ∧ α + β + γ = 1 ∧ P = combo3 α β γ X Y Z

/-- Three points lie on a common line `u*x + v*y = w` with `(u,v) ≠ (0,0)`. -/
def collinear3 (X Y Z : Point2D K) : Prop :=
  ∃ u v w : K, (u ≠ 0 ∨ v ≠ 0) ∧
    u * X.x + v * X.y = w ∧ u * Y.x + v * Y.y = w ∧ u * Z.x + v * Z.y = w

/-- `P` lies strictly inside the triangle formed by `X`, `Y`, `Z`:
the three vertices actually form a (non-degenerate) triangle, and `P` is a
convex combination of them with strictly positive weights.  This is the
topological interior of the triangle. -/
def strictlyInsideTri (P X Y Z : Point2D K) : Prop :=
  ¬ collinear3 X Y Z ∧
    ∃ α β γ : K, 0 < α ∧ 0 < β ∧ 0 < γ ∧ α + β + γ = 1 ∧
      P = combo3 α β γ X Y Z

/-- `P` lies on the closed segment between `X` and `Y`. -/
def inSeg (P X Y : Point2D K) : Prop :=
  ∃ β γ : K, 0 ≤ β ∧ 0 ≤ γ ∧ β + γ = 1 ∧
    P.x = β * X.x + γ * Y.x ∧ P.y = β * X.y + γ * Y.y

/-- The convex hull of the four points is a quadrilateral: all four points
are hull vertices, i.e. no point lies in the convex hull (closed triangle)
of the other three. -/
def hullIsQuadrilateral (A B C D : Point2D K) : Prop :=
  ¬ inClosedTri A B C D ∧ ¬ inClosedTri B A C D ∧
    ¬ inClosedTri C A B D ∧ ¬ inClosedTri D A B C

/-- The convex hull of the four points is a triangle: exactly one of the
four points lies strictly inside the triangle formed by the other three. -/
def hullIsTriangle (A B C D : Point2D K) : Prop :=
  (strictlyInsideTri A B C D ∧ ¬ strictlyInsideTri B A C D ∧
    ¬ strictlyInsideTri C A B D ∧ ¬ strictlyInsideTri D A B C) ∨
  (¬ strictlyInsideTri A B C D ∧ strictlyInsideTri B A C D ∧
    ¬ strictlyInsideTri C A B D ∧ ¬ strictlyInsideTri D A B C) ∨
  (¬ strictlyInsideTri A B C D ∧ ¬ strictlyInsideTri B A C D ∧
    strictlyInsideTri C A B D ∧ ¬ strictlyInsideTri D A B C) ∨
  (¬ strictlyInsideTri A B C D ∧ ¬ strictlyInsideTri B A C D ∧
    ¬ strictlyInsideTri C A B D ∧ strictlyInsideTri D A B C)

/-- All four points are pairwise distinct. -/
def pairwiseDistinct (A B C D : Point2D K) : Prop :=
  A ≠ B ∧ A ≠ C ∧ A ≠ D ∧ B ≠ C ∧ B ≠ D ∧ C ≠ D

/-- Degenerate configuration: some three of the four points are collinear,
or fewer than four distinct points are present. -/
def degenerateConfig (A B C D : Point2D K) : Prop :=
  (collinear3 A B C ∨ collinear3 A B D ∨ collinear3 A C D ∨ collinear3 B C D)
    ∨ ¬ pairwiseDistinct A B C D

/- ------------------------------------------------------------------
Lemmas about `sign`.
------------------------------------------------------------------ -/

theorem sign_eq_one_iff (x : K) : sign x = 1 ↔ 0 < x := by
  unfold sign
  split_ifs with h1 h2
  · exact ⟨fun _ => h1, fun _ => rfl⟩
  · exact ⟨fun h => absurd h (by decide), fun h => absurd h h1⟩
  · exact ⟨fun h => absurd h (by decide), fun h => absurd h h1⟩

theorem sign_eq_neg_one_iff (x : K) : sign x = -1 ↔ x < 0 := by
  unfold sign
  split_ifs with h1 h2
  · constructor
    · intro h
      exact absurd h (by decide)
    · intro h
      exact absurd h1 (lt_asymm h)
  · simp [h2]
  · constructor
    · intro h
      exact absurd h (by decide)
    · intro h
      exact absurd h h2

theorem sign_eq_zero_iff (x : K) : sign x = 0 ↔ x = 0 := by
  unfold sign
  split_ifs with h1 h2
  · constructor
    · intro h
      exact absurd h (by decide)
    · intro h
      exact absurd (h ▸ h1) (lt_irrefl 0)
  · constructor
    · intro h
      exact absurd h (by decide)
    · intro h
      exact absurd (h ▸ h2) (lt_irrefl 0)
  · constructor
    · intro _
      exact le_antisymm (not_lt.mp h1) (not_lt.mp h2)
    · intro _
      rfl

theorem sign_mul (x y : K) : sign (x * y) = sign x * sign y := by
  rcases lt_trichotomy x 0 with hx | hx | hx
  · rcases lt_trichotomy y 0 with hy | hy | hy
    · have h : 0 < x * y := mul_pos_of_neg_of_neg hx hy
      rw [(sign_eq_one_iff _).mpr h, (sign_eq_neg_one_iff x).mpr hx,
        (sign_eq_neg_one_iff y).mpr hy]
      decide
    · subst hy
      simp [sign]
    · have h : x * y < 0 := mul_neg_of_neg_of_pos hx hy
      rw [(sign_eq_neg_one_iff _).mpr h, (sign_eq_neg_one_iff x).mpr hx,
        (sign_eq_one_iff y).mpr hy]
      decide
  · subst hx
    simp [sign]
  · rcases lt_trichotomy y 0 with hy | hy | hy
    · have h : x * y < 0 := mul_neg_of_pos_of_neg hx hy
      rw [(sign_eq_neg_one_iff _).mpr h, (sign_eq_one_iff x).mpr hx,
        (sign_eq_neg_one_iff y).mpr hy]
      decide
    · subst hy
      simp [sign]
    · have h : 0 < x * y := mul_pos hx hy
      rw [(sign_eq_one_iff _).mpr h, (sign_eq_one_iff x).mpr hx,
        (sign_eq_one_iff y).mpr hy]
      decide

theorem sign_neg (x : K) : sign (-x) = -sign x := by
  rcases lt_trichotomy x 0 with hx | hx | hx
  · rw [(sign_eq_neg_one_iff x).mpr hx, (sign_eq_one_iff _).mpr (neg_pos.mpr hx)]
    decide
  · subst hx
    simp [sign]
  · rw [(sign_eq_one_iff x).mpr hx,
      (sign_eq_neg_one_iff _).mpr (neg_neg_iff_pos.mpr hx)]

/- ------------------------------------------------------------------
Algebraic identities for the discriminant.
------------------------------------------------------------------ -/

theorem disc_cyclic (A B C : Point2D K) : disc A B C = disc B C A := by
  unfold disc
  ring

theorem disc_swap12 (A B C : Point2D K) : disc B A C = -disc A B C := by
  unfold disc
  ring

theorem disc_swap23 (A B C : Point2D K) : disc A C B = -disc A B C := by
  unfold disc
  ring

theorem disc_self12 (A C : Point2D K) : disc A A C = 0 := by
  unfold disc
  ring

theorem disc_self13 (A B : Point2D K) : disc A B A = 0 := by
  unfold disc
  ring

theorem disc_self23 (A B : Point2D K) : disc A B B = 0 := by
  unfold disc
  ring

theorem disc_base (A B C : Point2D K) :
    disc A B C = (B.x - A.x) * (C.y - A.y) - (B.y - A.y) * (C.x - A.x) := by
  unfold disc
  ring

/-- The three sub-triangle discriminants at `P` sum to the full one. -/
theorem disc_expand (A B C P : Point2D K) :
    disc P B C + disc A P C + disc A B P = disc A B C := by
  unfold disc
  ring

/-- `disc` is affine in its first argument. -/
theorem disc_affine (α β γ : K) (hsum : α + β + γ = 1) (A B C Q R : Point2D K) :
    disc (combo3 α β γ A B C) Q R =
      α * disc A Q R + β * disc B Q R + γ * disc C Q R := by
  have hγ : γ = 1 - α - β := by linarith
  subst hγ
  unfold disc combo3
  ring

/-- Cramer coordinate identity for the first coordinate. -/
theorem cramer_x (P A B C : Point2D K) :
    disc P B C * A.x + disc A P C * B.x + disc A B P * C.x =
      disc A B C * P.x := by
  unfold disc
  ring

/-- Cramer coordinate identity for the second coordinate. -/
theorem cramer_y (P A B C : Point2D K) :
    disc P B C * A.y + disc A P C * B.y + disc A B P * C.y =
      disc A B C * P.y := by
  unfold disc
  ring

/-- Barycentric coordinates exist: every point is the affine combination of
a non-degenerate triangle with the Cramer coefficients. -/
theorem cramer (P A B C : Point2D K) (hd : disc A B C ≠ 0) :
    P = combo3 (disc P B C / disc A B C) (disc A P C / disc A B C)
      (disc A B P / disc A B C) A B C := by
  ext
  · show P.x = _
    simp only [combo3]
    rw [div_mul_eq_mul_div, div_mul_eq_mul_div, div_mul_eq_mul_div,
      div_add_div_same, div_add_div_same, cramer_x, mul_div_cancel_left₀ _ hd]
  · show P.y = _
    simp only [combo3]
    rw [div_mul_eq_mul_div, div_mul_eq_mul_div, div_mul_eq_mul_div,
      div_add_div_same, div_add_div_same, cramer_y, mul_div_cancel_left₀ _ hd]

/-- Uniqueness of the first barycentric coordinate. -/
theorem bary_unique_fst (α β γ : K) (hsum : α + β + γ = 1) (A B C : Point2D K) :
    disc (combo3 α β γ A B C) B C = α * disc A B C := by
  rw [disc_affine α β γ hsum, disc_self12, disc_self13]
  ring

/-- Uniqueness of the second barycentric coordinate. -/
theorem bary_unique_snd (α β γ : K) (hsum : α + β + γ = 1) (A B C : Point2D K) :
    disc A (combo3 α β γ A B C) C = β * disc A B C := by
  rw [disc_cyclic, disc_affine α β γ hsum, disc_self13 A C, disc_self12,
    ← disc_cyclic]
  ring

/-- Uniqueness of the third barycentric coordinate. -/
theorem bary_unique_trd (α β γ : K) (hsum : α + β + γ = 1) (A B C : Point2D K) :
    disc A B (combo3 α β γ A B C) = γ * disc A B C := by
  rw [disc_cyclic, disc_cyclic B, disc_affine α β γ hsum, disc_self12,
    disc_self13 B A, disc_cyclic C, disc_cyclic A]
  ring

/- ------------------------------------------------------------------
Collinearity via a common line is exactly vanishing of the discriminant.
------------------------------------------------------------------ -/

theorem collinear3_of_disc_eq_zero (A B C : Point2D K) (h : disc A B C = 0) :
    collinear3 A B C := by
  by_cases hAB : A = B
  · by_cases hAC : A = C
    · refine ⟨1, 0, A.x, Or.inl one_ne_zero, by ring, ?_, ?_⟩
      · rw [← hAB]
        ring
      · rw [← hAC]
        ring
    · refine ⟨A.y - C.y, C.x - A.x, (A.y - C.y) * A.x + (C.x - A.x) * A.y, ?_, rfl,
        ?_, by ring⟩
      · by_contra hcon
        push_neg at hcon
        apply hAC
        ext
        · have := hcon.2
          linarith [sub_eq_zero.mp this]
        · have := hcon.1
          linarith [sub_eq_zero.mp this]
      · rw [← hAB]
  · refine ⟨A.y - B.y, B.x - A.x, (A.y - B.y) * A.x + (B.x - A.x) * A.y, ?_, rfl,
      by ring, ?_⟩
    · by_contra hcon
      push_neg at hcon
      apply hAB
      ext
      · linarith [sub_eq_zero.mp hcon.2]
      · linarith [sub_eq_zero.mp hcon.1]
    · have hb := disc_base A B C
      rw [h] at hb
      linear_combination -hb

theorem disc_eq_zero_of_collinear3 (A B C : Point2D K) (h : collinear3 A B C) :
    disc A B C = 0 := by
  obtain ⟨u, v, w, huv, hA, hB, hC⟩ := h
  have h1 : u * (A.x - C.x) + v * (A.y - C.y) = 0 := by linarith
  have h2 : u * (B.x - C.x) + v * (B.y - C.y) = 0 := by linarith
  have hu : u * disc A B C = 0 := by
    unfold disc
    linear_combination (B.y - C.y) * h1 - (A.y - C.y) * h2
  have hv : v * disc A B C = 0 := by
    unfold disc
    linear_combination -(B.x - C.x) * h1 + (A.x - C.x) * h2
  rcases huv with hu0 | hv0
  · rcases mul_eq_zero.mp hu with h' | h'
    · exact absurd h' hu0
    · exact h'
  · rcases mul_eq_zero.mp hv with h' | h'
    · exact absurd h' hv0
    · exact h'

theorem disc_eq_zero_iff_collinear3 (A B C : Point2D K) :
    disc A B C = 0 ↔ collinear3 A B C :=
  ⟨collinear3_of_disc_eq_zero A B C, disc_eq_zero_of_collinear3 A B C⟩

/- ------------------------------------------------------------------
Sign helpers for quotients.
------------------------------------------------------------------ -/

theorem div_nonneg_of_mul_nonneg (x y : K) (h : 0 ≤ x * y) : 0 ≤ x / y := by
  rcases mul_nonneg_iff.mp h with ⟨hx, hy⟩ | ⟨hx, hy⟩
  · exact div_nonneg_iff.mpr (Or.inl ⟨hx, hy⟩)
  · exact div_nonneg_iff.mpr (Or.inr ⟨hx, hy⟩)

theorem div_pos_of_mul_pos (x y : K) (h : 0 < x * y) : 0 < x / y := by
  rcases mul_pos_iff.mp h with ⟨hx, hy⟩ | ⟨hx, hy⟩
  · exact div_pos_iff.mpr (Or.inl ⟨hx, hy⟩)
  · exact div_pos_iff.mpr (Or.inr ⟨hx, hy⟩)

/- ------------------------------------------------------------------
Membership in closed and open triangles, via discriminant products.
------------------------------------------------------------------ -/

theorem inClosedTri_iff (P A B C : Point2D K) (hd : disc A B C ≠ 0) :
    inClosedTri P A B C ↔
      0 ≤ disc P B C * disc A B C ∧ 0 ≤ disc A P C * disc A B C ∧
        0 ≤ disc A B P * disc A B C := by
  constructor
  · rintro ⟨α, β, γ, hα, hβ, hγ, hsum, rfl⟩
    refine ⟨?_, ?_, ?_⟩
    · rw [bary_unique_fst α β γ hsum]
      calc (0:K) ≤ α * (disc A B C * disc A B C) :=
            mul_nonneg hα (mul_self_nonneg _)
        _ = α * disc A B C * disc A B C := by ring
    · rw [bary_unique_snd α β γ hsum]
      calc (0:K) ≤ β * (disc A B C * disc A B C) :=
            mul_nonneg hβ (mul_self_nonneg _)
        _ = β * disc A B C * disc A B C := by ring
    · rw [bary_unique_trd α β γ hsum]
      calc (0:K) ≤ γ * (disc A B C * disc A B C) :=
            mul_nonneg hγ (mul_self_nonneg _)
        _ = γ * disc A B C * disc A B C := by ring
  · rintro ⟨h1, h2, h3⟩
    refine ⟨disc P B C / disc A B C, disc A P C / disc A B C,
      disc A B P / disc A B C,
      div_nonneg_of_mul_nonneg _ _ h1, div_nonneg_of_mul_nonneg _ _ h2,
      div_nonneg_of_mul_nonneg _ _ h3, ?_, cramer P A B C hd⟩
    rw [div_add_div_same, div_add_div_same, disc_expand]
    exact div_self hd

theorem strictlyInsideTri_iff (P A B C : Point2D K) :
    strictlyInsideTri P A B C ↔
      disc A B C ≠ 0 ∧ 0 < disc P B C * disc A B C ∧
        0 < disc A P C * disc A B C ∧ 0 < disc A B P * disc A B C := by
  unfold strictlyInsideTri
  have hcol : ¬ collinear3 A B C ↔ disc A B C ≠ 0 :=
    not_iff_not.mpr (disc_eq_zero_iff_collinear3 A B C).symm
  constructor
  · rintro ⟨hnc, α, β, γ, hα, hβ, hγ, hsum, rfl⟩
    have hd : disc A B C ≠ 0 := hcol.mp hnc
    refine ⟨hd, ?_, ?_, ?_⟩
    · rw [bary_unique_fst α β γ hsum]
      calc (0:K) < α * (disc A B C * disc A B C) :=
            mul_pos hα (mul_self_pos.mpr hd)
        _ = α * disc A B C * disc A B C := by ring
    · rw [bary_unique_snd α β γ hsum]
      calc (0:K) < β * (disc A B C * disc A B C) :=
            mul_pos hβ (mul_self_pos.mpr hd)
        _ = β * disc A B C * disc A B C := by ring
    · rw [bary_unique_trd α β γ hsum]
      calc (0:K) < γ * (disc A B C * disc A B C) :=
            mul_pos hγ (mul_self_pos.mpr hd)
        _ = γ * disc A B C * disc A B C := by ring
  · rintro ⟨hd, h1, h2, h3⟩
    refine ⟨hcol.mpr hd, disc P B C / disc A B C, disc A P C / disc A B C,
      disc A B P / disc A B C,
      div_pos_of_mul_pos _ _ h1, div_pos_of_mul_pos _ _ h2,
      div_pos_of_mul_pos _ _ h3, ?_, cramer P A B C hd⟩
    rw [div_add_div_same, div_add_div_same, disc_expand]
    exact div_self hd

/-- A strictly interior point is in the closed triangle. -/
theorem inClosedTri_of_strictlyInsideTri (P A B C : Point2D K)
    (h : strictlyInsideTri P A B C) : inClosedTri P A B C := by
  obtain ⟨-, α, β, γ, hα, hβ, hγ, hsum, hP⟩ := h
  exact ⟨α, β, γ, hα.le, hβ.le, hγ.le, hsum, hP⟩

/- ------------------------------------------------------------------
Collinear triples and segments: one of three aligned points lies on the
segment spanned by the other two.
------------------------------------------------------------------ -/

theorem seg_param (A B C : Point2D K) (t : K)
    (hCx : C.x - A.x = t * (B.x - A.x)) (hCy : C.y - A.y = t * (B.y - A.y)) :
    inSeg A B C ∨ inSeg B A C ∨ inSeg C A B := by
  rcases lt_or_le t 0 with ht | ht
  · left
    have h1t : (0:K) < 1 - t := by linarith
    refine ⟨-t / (1 - t), 1 / (1 - t), ?_, ?_, ?_, ?_, ?_⟩
    · exact div_nonneg (by linarith) h1t.le
    · exact div_nonneg (by linarith) h1t.le
    · rw [div_add_div_same]
      have he : -t + 1 = 1 - t := by ring
      rw [he]
      exact div_self h1t.ne.symm
    · rw [div_mul_eq_mul_div, div_mul_eq_mul_div, div_add_div_same,
        eq_div_iff h1t.ne.symm]
      linear_combination -hCx
    · rw [div_mul_eq_mul_div, div_mul_eq_mul_div, div_add_div_same,
        eq_div_iff h1t.ne.symm]
      linear_combination -hCy
  · rcases le_or_lt t 1 with ht1 | ht1
    · right
      right
      refine ⟨1 - t, t, by linarith, ht, by ring, ?_, ?_⟩
      · linear_combination hCx
      · linear_combination hCy
    · right
      left
      have ht0 : t ≠ 0 := by positivity
      refine ⟨1 - 1 / t, 1 / t, ?_, ?_, by ring, ?_, ?_⟩
      · have : 1 / t ≤ 1 := by
          rw [div_le_one (by linarith)]
          linarith
        linarith
      · positivity
      · field_simp
        linear_combination -hCx
      · field_simp
        linear_combination -hCy

/-- Three collinear points: one of them lies on the segment of the others. -/
theorem seg_of_disc_eq_zero (A B C : Point2D K) (h : disc A B C = 0) :
    inSeg A B C ∨ inSeg B A C ∨ inSeg C A B := by
  have hkey : (B.x - A.x) * (C.y - A.y) = (B.y - A.y) * (C.x - A.x) := by
    have hb := disc_base A B C
    linear_combination h - hb
  by_cases hx : B.x - A.x = 0
  · by_cases hy : B.y - A.y = 0
    · -- A = B: A lies on the segment from B to C.
      left
      refine ⟨1, 0, zero_le_one, le_refl 0, by ring, ?_, ?_⟩
      · have : B.x = A.x := by linarith
        rw [this]
        ring
      · have : B.y = A.y := by linarith
        rw [this]
        ring
    · have hCx0 : C.x - A.x = 0 := by
        rcases mul_eq_zero.mp (by linear_combination (C.y - A.y) * hx - hkey :
          (B.y - A.y) * (C.x - A.x) = 0) with h' | h'
        · exact absurd h' hy
        · exact h'
      exact seg_param A B C ((C.y - A.y) / (B.y - A.y))
        (by rw [hCx0, div_mul_eq_mul_div, hx, mul_zero, zero_div])
        (by rw [div_mul_eq_mul_div, mul_comm, mul_div_cancel_left₀ _ hy])
  · exact seg_param A B C ((C.x - A.x) / (B.x - A.x))
      (by rw [div_mul_eq_mul_div, mul_comm, mul_div_cancel_left₀ _ hx])
      (by
        rw [div_mul_eq_mul_div, eq_div_iff hx]
        linear_combination hkey)

/-- A point on a segment is in every closed triangle having the segment
endpoints in slots 1 and 2. -/
theorem inClosedTri_of_seg12 (P X Y Z : Point2D K) (h : inSeg P X Y) :
    inClosedTri P X Y Z := by
  obtain ⟨β, γ, hβ, hγ, hsum, hx, hy⟩ := h
  refine ⟨β, γ, 0, hβ, hγ, le_refl 0, by linarith, ?_⟩
  ext
  · simp only [combo3]
    linear_combination hx
  · simp only [combo3]
    linear_combination hy

/-- A point on a segment is in every closed triangle having the segment
endpoints in slots 1 and 3. -/
theorem inClosedTri_of_seg13 (P X Y Z : Point2D K) (h : inSeg P X Z) :
    inClosedTri P X Y Z := by
  obtain ⟨β, γ, hβ, hγ, hsum, hx, hy⟩ := h
  refine ⟨β, 0, γ, hβ, le_refl 0, hγ, by linarith, ?_⟩
  ext
  · simp only [combo3]
    linear_combination hx
  · simp only [combo3]
    linear_combination hy

/-- A point on a segment is in every closed triangle having the segment
endpoints in slots 2 and 3. -/
theorem inClosedTri_of_seg23 (P X Y Z : Point2D K) (h : inSeg P Y Z) :
    inClosedTri P X Y Z := by
  obtain ⟨β, γ, hβ, hγ, hsum, hx, hy⟩ := h
  refine ⟨0, β, γ, le_refl 0, hβ, hγ, by linarith, ?_⟩
  ext
  · simp only [combo3]
    linear_combination hx
  · simp only [combo3]
    linear_combination hy

/- ------------------------------------------------------------------
A degenerate triple forbids a quadrilateral hull.
------------------------------------------------------------------ -/

theorem not_quad_of_disc_ABC (A B C D : Point2D K) (h : disc A B C = 0) :
    ¬ hullIsQuadrilateral A B C D := by
  rintro ⟨hA, hB, hC, -⟩
  rcases seg_of_disc_eq_zero A B C h with hs | hs | hs
  · exact hA (inClosedTri_of_seg12 A B C D hs)
  · exact hB (inClosedTri_of_seg12 B A C D hs)
  · exact hC (inClosedTri_of_seg12 C A B D hs)

theorem not_quad_of_disc_ABD (A B C D : Point2D K) (h : disc A B D = 0) :
    ¬ hullIsQuadrilateral A B C D := by
  rintro ⟨hA, hB, -, hD⟩
  rcases seg_of_disc_eq_zero A B D h with hs | hs | hs
  · exact hA (inClosedTri_of_seg13 A B C D hs)
  · exact hB (inClosedTri_of_seg13 B A C D hs)
  · exact hD (inClosedTri_of_seg12 D A B C hs)

theorem not_quad_of_disc_ACD (A B C D : Point2D K) (h : disc A C D = 0) :
    ¬ hullIsQuadrilateral A B C D := by
  rintro ⟨hA, -, hC, hD⟩
  rcases seg_of_disc_eq_zero A C D h with hs | hs | hs
  · exact hA (inClosedTri_of_seg23 A B C D hs)
  · exact hC (inClosedTri_of_seg13 C A B D hs)
  · exact hD (inClosedTri_of_seg13 D A B C hs)

theorem not_quad_of_disc_BCD (A B C D : Point2D K) (h : disc B C D = 0) :
    ¬ hullIsQuadrilateral A B C D := by
  rintro ⟨-, hB, hC, hD⟩
  rcases seg_of_disc_eq_zero B C D h with hs | hs | hs
  · exact hB (inClosedTri_of_seg23 B A C D hs)
  · exact hC (inClosedTri_of_seg23 C A B D hs)
  · exact hD (inClosedTri_of_seg23 D A B C hs)

/- ------------------------------------------------------------------
The classification as the sign of a single product.
------------------------------------------------------------------ -/

theorem classify_eq_sign (A B C D : Point2D K) :
    classify_points A B C D =
      sign (disc A B C * disc A B D * disc A C D * disc B C D) := by
  unfold classify_points orientation
  rw [sign_mul, sign_mul, sign_mul]

/- ------------------------------------------------------------------
The four membership predicates in canonical discriminant form, using the
quartet Δ = disc A B C, a = disc D B C, b = disc A D C, c = disc A B D
(which satisfy a + b + c = Δ by disc_expand).
------------------------------------------------------------------ -/

theorem strict_D_iff (A B C D : Point2D K) :
    strictlyInsideTri D A B C ↔
      disc A B C ≠ 0 ∧ 0 < disc D B C * disc A B C ∧
        0 < disc A D C * disc A B C ∧ 0 < disc A B D * disc A B C :=
  strictlyInsideTri_iff D A B C

theorem strict_A_iff (A B C D : Point2D K) :
    strictlyInsideTri A B C D ↔
      disc D B C ≠ 0 ∧ 0 < -disc A D C * disc D B C ∧
        0 < -disc A B D * disc D B C ∧ 0 < disc A B C * disc D B C := by
  rw [strictlyInsideTri_iff A B C D, ← disc_cyclic D B C, disc_swap23 A D C,
    disc_swap12 A B D, ← disc_cyclic A B C]

theorem strict_B_iff (A B C D : Point2D K) :
    strictlyInsideTri B A C D ↔
      disc A D C ≠ 0 ∧ 0 < disc D B C * -disc A D C ∧
        0 < disc A B D * -disc A D C ∧ 0 < -disc A B C * -disc A D C := by
  rw [strictlyInsideTri_iff B A C D, disc_swap23 A D C, ← disc_cyclic D B C,
    disc_swap23 A B C, neg_ne_zero]

theorem strict_C_iff (A B C D : Point2D K) :
    strictlyInsideTri C A B D ↔
      disc A B D ≠ 0 ∧ 0 < -disc D B C * disc A B D ∧
        0 < -disc A D C * disc A B D ∧ 0 < disc A B C * disc A B D := by
  rw [strictlyInsideTri_iff C A B D, disc_swap12 B C D, ← disc_cyclic D B C,
    disc_swap23 A D C]

theorem closed_D_iff (A B C D : Point2D K) (hΔ : disc A B C ≠ 0) :
    inClosedTri D A B C ↔
      0 ≤ disc D B C * disc A B C ∧ 0 ≤ disc A D C * disc A B C ∧
        0 ≤ disc A B D * disc A B C :=
  inClosedTri_iff D A B C hΔ

theorem closed_A_iff (A B C D : Point2D K) (ha : disc D B C ≠ 0) :
    inClosedTri A B C D ↔
      0 ≤ -disc A D C * disc D B C ∧ 0 ≤ -disc A B D * disc D B C ∧
        0 ≤ disc A B C * disc D B C := by
  have hd : disc B C D ≠ 0 := by
    rwa [← disc_cyclic D B C]
  rw [inClosedTri_iff A B C D hd, ← disc_cyclic D B C, disc_swap23 A D C,
    disc_swap12 A B D, ← disc_cyclic A B C]

theorem closed_B_iff (A B C D : Point2D K) (hb : disc A D C ≠ 0) :
    inClosedTri B A C D ↔
      0 ≤ disc D B C * -disc A D C ∧ 0 ≤ disc A B D * -disc A D C ∧
        0 ≤ -disc A B C * -disc A D C := by
  have hd : disc A C D ≠ 0 := by
    rw [disc_swap23 A D C]
    exact neg_ne_zero.mpr hb
  rw [inClosedTri_iff B A C D hd, disc_swap23 A D C, ← disc_cyclic D B C,
    disc_swap23 A B C]

theorem closed_C_iff (A B C D : Point2D K) (hc : disc A B D ≠ 0) :
    inClosedTri C A B D ↔
      0 ≤ -disc D B C * disc A B D ∧ 0 ≤ -disc A D C * disc A B D ∧
        0 ≤ disc A B C * disc A B D := by
  rw [inClosedTri_iff C A B D hc, disc_swap12 B C D, ← disc_cyclic D B C,
    disc_swap23 A D C]

theorem pos_of_mul_sq (x y : K) (hy : y ≠ 0) (h : 0 < x * (y * y)) : 0 < x := by
  rcases lt_or_le 0 x with hx | hx
  · exact hx
  · exfalso
    have hsq : 0 < y * y := mul_self_pos.mpr hy
    nlinarith

/- ------------------------------------------------------------------
The two generic-position cases: positive Δ·a·b·c corresponds to a triangle
hull, negative Δ·a·b·c to a quadrilateral hull.
------------------------------------------------------------------ -/

set_option maxHeartbeats 2000000 in
theorem triangle_case (A B C D : Point2D K)
    (hΔ : disc A B C ≠ 0) (ha : disc D B C ≠ 0) (hb : disc A D C ≠ 0)
    (hc : disc A B D ≠ 0)
    (hpos : 0 < disc A B C * disc D B C * disc A D C * disc A B D) :
    hullIsTriangle A B C D := by
  have hsum : disc D B C + disc A D C + disc A B D = disc A B C :=
    disc_expand A B C D
  rcases ha.lt_or_lt with ha1 | ha1 <;> rcases hb.lt_or_lt with hb1 | hb1 <;>
    rcases hc.lt_or_lt with hc1 | hc1
  · -- a < 0, b < 0, c < 0: D strictly inside ABC (negative orientation)
    have hΔ1 : disc A B C < 0 := by linarith
    refine Or.inr (Or.inr (Or.inr ⟨?_, ?_, ?_, ?_⟩))
    · rw [strict_A_iff]
      rintro ⟨-, h1, -, -⟩
      nlinarith
    · rw [strict_B_iff]
      rintro ⟨-, h1, -, -⟩
      nlinarith
    · rw [strict_C_iff]
      rintro ⟨-, h1, -, -⟩
      nlinarith
    · rw [strict_D_iff]
      exact ⟨hΔ, by nlinarith, by nlinarith, by nlinarith⟩
  · -- a < 0, b < 0, c > 0: C strictly inside ABD
    have hΔ1 : 0 < disc A B C := by
      nlinarith [mul_pos (mul_pos_of_neg_of_neg ha1 hb1) hc1]
    refine Or.inr (Or.inr (Or.inl ⟨?_, ?_, ?_, ?_⟩))
    · rw [strict_A_iff]
      rintro ⟨-, -, -, h3⟩
      nlinarith
    · rw [strict_B_iff]
      rintro ⟨-, -, -, h3⟩
      nlinarith
    · rw [strict_C_iff]
      exact ⟨hc, by nlinarith, by nlinarith, by nlinarith⟩
    · rw [strict_D_iff]
      rintro ⟨-, h1, -, -⟩
      nlinarith
  · -- a < 0, b > 0, c < 0: B strictly inside ACD
    have hΔ1 : 0 < disc A B C := by
      nlinarith [mul_pos (mul_pos_of_neg_of_neg ha1 hc1) hb1]
    refine Or.inr (Or.inl ⟨?_, ?_, ?_, ?_⟩)
    · rw [strict_A_iff]
      rintro ⟨-, -, -, h3⟩
      nlinarith
    · rw [strict_B_iff]
      exact ⟨hb, by nlinarith, by nlinarith, by nlinarith⟩
    · rw [strict_C_iff]
      rintro ⟨-, -, -, h3⟩
      nlinarith
    · rw [strict_D_iff]
      rintro ⟨-, h1, -, -⟩
      nlinarith
  · -- a < 0, b > 0, c > 0: A strictly inside BCD (Δ < 0)
    have hΔ1 : disc A B C < 0 := by
      nlinarith [mul_neg_of_neg_of_pos ha1 (mul_pos hb1 hc1)]
    refine Or.inl ⟨?_, ?_, ?_, ?_⟩
    · rw [strict_A_iff]
      exact ⟨ha, by nlinarith, by nlinarith, by nlinarith⟩
    · rw [strict_B_iff]
      rintro ⟨-, -, -, h3⟩
      nlinarith
    · rw [strict_C_iff]
      rintro ⟨-, -, -, h3⟩
      nlinarith
    · rw [strict_D_iff]
      rintro ⟨-, -, h2, -⟩
      nlinarith
  · -- a > 0, b < 0, c < 0: A strictly inside BCD (Δ > 0)
    have hΔ1 : 0 < disc A B C := by
      nlinarith [mul_pos ha1 (mul_pos_of_neg_of_neg hb1 hc1)]
    refine Or.inl ⟨?_, ?_, ?_, ?_⟩
    · rw [strict_A_iff]
      exact ⟨ha, by nlinarith, by nlinarith, by nlinarith⟩
    · rw [strict_B_iff]
      rintro ⟨-, -, -, h3⟩
      nlinarith
    · rw [strict_C_iff]
      rintro ⟨-, -, -, h3⟩
      nlinarith
    · rw [strict_D_iff]
      rintro ⟨-, -, h2, -⟩
      nlinarith
  · -- a > 0, b < 0, c > 0: B strictly inside ACD (Δ < 0)
    have hΔ1 : disc A B C < 0 := by
      nlinarith [mul_neg_of_neg_of_pos hb1 (mul_pos ha1 hc1)]
    refine Or.inr (Or.inl ⟨?_, ?_, ?_, ?_⟩)
    · rw [strict_A_iff]
      rintro ⟨-, -, -, h3⟩
      nlinarith
    · rw [strict_B_iff]
      exact ⟨hb, by nlinarith, by nlinarith, by nlinarith⟩
    · rw [strict_C_iff]
      rintro ⟨-, -, -, h3⟩
      nlinarith
    · rw [strict_D_iff]
      rintro ⟨-, h1, -, -⟩
      nlinarith
  · -- a > 0, b > 0, c < 0: C strictly inside ABD (Δ < 0)
    have hΔ1 : disc A B C < 0 := by
      nlinarith [mul_neg_of_pos_of_neg (mul_pos ha1 hb1) hc1]
    refine Or.inr (Or.inr (Or.inl ⟨?_, ?_, ?_, ?_⟩))
    · rw [strict_A_iff]
      rintro ⟨-, -, -, h3⟩
      nlinarith
    · rw [strict_B_iff]
      rintro ⟨-, -, -, h3⟩
      nlinarith
    · rw [strict_C_iff]
      exact ⟨hc, by nlinarith, by nlinarith, by nlinarith⟩
    · rw [strict_D_iff]
      rintro ⟨-, h1, -, -⟩
      nlinarith
  · -- a > 0, b > 0, c > 0: D strictly inside ABC (positive orientation)
    have hΔ1 : 0 < disc A B C := by linarith
    refine Or.inr (Or.inr (Or.inr ⟨?_, ?_, ?_, ?_⟩))
    · rw [strict_A_iff]
      rintro ⟨-, h1, -, -⟩
      nlinarith
    · rw [strict_B_iff]
      rintro ⟨-, h1, -, -⟩
      nlinarith
    · rw [strict_C_iff]
      rintro ⟨-, h1, -, -⟩
      nlinarith
    · rw [strict_D_iff]
      exact ⟨hΔ, by nlinarith, by nlinarith, by nlinarith⟩

theorem quad_case (A B C D : Point2D K)
    (hΔ : disc A B C ≠ 0) (ha : disc D B C ≠ 0) (hb : disc A D C ≠ 0)
    (hc : disc A B D ≠ 0)
    (hneg : disc A B C * disc D B C * disc A D C * disc A B D < 0) :
    hullIsQuadrilateral A B C D := by
  refine ⟨?_, ?_, ?_, ?_⟩
  · rw [closed_A_iff A B C D ha]
    rintro ⟨h1, h2, h3⟩
    have hsq : 0 < disc D B C * disc D B C := mul_self_pos.mpr ha
    have h0 : 0 ≤ (-disc A D C * disc D B C) *
        ((-disc A B D * disc D B C) * (disc A B C * disc D B C)) :=
      mul_nonneg h1 (mul_nonneg h2 h3)
    have hk : (-disc A D C * disc D B C) *
        ((-disc A B D * disc D B C) * (disc A B C * disc D B C)) =
        disc A B C * disc D B C * disc A D C * disc A B D *
          (disc D B C * disc D B C) := by ring
    rw [hk] at h0
    exact absurd h0 (not_le.mpr (mul_neg_of_neg_of_pos hneg hsq))
  · rw [closed_B_iff A B C D hb]
    rintro ⟨h1, h2, h3⟩
    have hsq : 0 < disc A D C * disc A D C := mul_self_pos.mpr hb
    have h0 : 0 ≤ (disc D B C * -disc A D C) *
        ((disc A B D * -disc A D C) * (-disc A B C * -disc A D C)) :=
      mul_nonneg h1 (mul_nonneg h2 h3)
    have hk : (disc D B C * -disc A D C) *
        ((disc A B D * -disc A D C) * (-disc A B C * -disc A D C)) =
        disc A B C * disc D B C * disc A D C * disc A B D *
          (disc A D C * disc A D C) := by ring
    rw [hk] at h0
    exact absurd h0 (not_le.mpr (mul_neg_of_neg_of_pos hneg hsq))
  · rw [closed_C_iff A B C D hc]
    rintro ⟨h1, h2, h3⟩
    have hsq : 0 < disc A B D * disc A B D := mul_self_pos.mpr hc
    have h0 : 0 ≤ (-disc D B C * disc A B D) *
        ((-disc A D C * disc A B D) * (disc A B C * disc A B D)) :=
      mul_nonneg h1 (mul_nonneg h2 h3)
    have hk : (-disc D B C * disc A B D) *
        ((-disc A D C * disc A B D) * (disc A B C * disc A B D)) =
        disc A B C * disc D B C * disc A D C * disc A B D *
          (disc A B D * disc A B D) := by ring
    rw [hk] at h0
    exact absurd h0 (not_le.mpr (mul_neg_of_neg_of_pos hneg hsq))
  · rw [closed_D_iff A B C D hΔ]
    rintro ⟨h1, h2, h3⟩
    have hsq : 0 < disc A B C * disc A B C := mul_self_pos.mpr hΔ
    have h0 : 0 ≤ (disc D B C * disc A B C) *
        ((disc A D C * disc A B C) * (disc A B D * disc A B C)) :=
      mul_nonneg h1 (mul_nonneg h2 h3)
    have hk : (disc D B C * disc A B C) *
        ((disc A D C * disc A B C) * (disc A B D * disc A B C)) =
        disc A B C * disc D B C * disc A D C * disc A B D *
          (disc A B C * disc A B C) := by ring
    rw [hk] at h0
    exact absurd h0 (not_le.mpr (mul_neg_of_neg_of_pos hneg hsq))

/- ------------------------------------------------------------------
The three classification equivalences.
------------------------------------------------------------------ -/

/-- Reordering of the four-fold product into the canonical quartet. -/
theorem classify_prod_rw (A B C D : Point2D K) :
    disc A B C * disc A B D * disc A C D * disc B C D =
      -(disc A B C * disc D B C * disc A D C * disc A B D) := by
  rw [disc_swap23 A D C, ← disc_cyclic D B C]
  ring

theorem classify_one_iff (A B C D : Point2D K) :
    classify_points A B C D = 1 ↔ hullIsQuadrilateral A B C D := by
  constructor
  · intro h
    rw [classify_eq_sign] at h
    have hM : 0 < disc A B C * disc A B D * disc A C D * disc B C D :=
      (sign_eq_one_iff _).mp h
    obtain ⟨h123, h4⟩ := mul_ne_zero_iff.mp hM.ne'
    obtain ⟨h12, h3⟩ := mul_ne_zero_iff.mp h123
    obtain ⟨h1, h2⟩ := mul_ne_zero_iff.mp h12
    have hb : disc A D C ≠ 0 := by
      rw [disc_swap23 A D C, neg_ne_zero] at h3
      exact h3
    have ha : disc D B C ≠ 0 := by
      rwa [← disc_cyclic D B C] at h4
    have hneg : disc A B C * disc D B C * disc A D C * disc A B D < 0 := by
      rw [classify_prod_rw] at hM
      linarith
    exact quad_case A B C D h1 ha hb h2 hneg
  · intro hq
    have hΔ : disc A B C ≠ 0 := fun h0 => not_quad_of_disc_ABC A B C D h0 hq
    have hc : disc A B D ≠ 0 := fun h0 => not_quad_of_disc_ABD A B C D h0 hq
    have hacd : disc A C D ≠ 0 := fun h0 => not_quad_of_disc_ACD A B C D h0 hq
    have hbcd : disc B C D ≠ 0 := fun h0 => not_quad_of_disc_BCD A B C D h0 hq
    have hb : disc A D C ≠ 0 := fun h0 => hacd (by rw [disc_swap23 A D C, h0, neg_zero])
    have ha : disc D B C ≠ 0 := fun h0 => hbcd (by rw [← disc_cyclic D B C, h0])
    rw [classify_eq_sign, sign_eq_one_iff]
    have hMne : disc A B C * disc A B D * disc A C D * disc B C D ≠ 0 :=
      mul_ne_zero (mul_ne_zero (mul_ne_zero hΔ hc) hacd) hbcd
    rcases hMne.lt_or_lt with hlt | hgt
    · exfalso
      have hpos : 0 < disc A B C * disc D B C * disc A D C * disc A B D := by
        rw [classify_prod_rw] at hlt
        linarith
      rcases triangle_case A B C D hΔ ha hb hc hpos with
        ⟨hs, -, -, -⟩ | ⟨-, hs, -, -⟩ | ⟨-, -, hs, -⟩ | ⟨-, -, -, hs⟩
      · exact hq.1 (inClosedTri_of_strictlyInsideTri _ _ _ _ hs)
      · exact hq.2.1 (inClosedTri_of_strictlyInsideTri _ _ _ _ hs)
      · exact hq.2.2.1 (inClosedTri_of_strictlyInsideTri _ _ _ _ hs)
      · exact hq.2.2.2 (inClosedTri_of_strictlyInsideTri _ _ _ _ hs)
    · exact hgt

theorem classify_neg_one_iff (A B C D : Point2D K) :
    classify_points A B C D = -1 ↔ hullIsTriangle A B C D := by
  constructor
  · intro h
    rw [classify_eq_sign] at h
    have hM : disc A B C * disc A B D * disc A C D * disc B C D < 0 :=
      (sign_eq_neg_one_iff _).mp h
    obtain ⟨h123, h4⟩ := mul_ne_zero_iff.mp hM.ne
    obtain ⟨h12, h3⟩ := mul_ne_zero_iff.mp h123
    obtain ⟨h1, h2⟩ := mul_ne_zero_iff.mp h12
    have hb : disc A D C ≠ 0 := by
      rw [disc_swap23 A D C, neg_ne_zero] at h3
      exact h3
    have ha : disc D B C ≠ 0 := by
      rwa [← disc_cyclic D B C] at h4
    have hpos : 0 < disc A B C * disc D B C * disc A D C * disc A B D := by
      rw [classify_prod_rw] at hM
      linarith
    exact triangle_case A B C D h1 ha hb h2 hpos
  · intro htri
    rw [classify_eq_sign, sign_eq_neg_one_iff, classify_prod_rw, neg_lt_zero]
    rcases htri with ⟨hs, -, -, -⟩ | ⟨-, hs, -, -⟩ | ⟨-, -, hs, -⟩ | ⟨-, -, -, hs⟩
    · rw [strict_A_iff] at hs
      obtain ⟨hne, h1, h2, h3⟩ := hs
      have hp := mul_pos h1 (mul_pos h2 h3)
      have hk : -disc A D C * disc D B C *
          (-disc A B D * disc D B C * (disc A B C * disc D B C)) =
          disc A B C * disc D B C * disc A D C * disc A B D *
            (disc D B C * disc D B C) := by ring
      rw [hk] at hp
      exact pos_of_mul_sq _ _ hne hp
    · rw [strict_B_iff] at hs
      obtain ⟨hne, h1, h2, h3⟩ := hs
      have hp := mul_pos h1 (mul_pos h2 h3)
      have hk : disc D B C * -disc A D C *
          (disc A B D * -disc A D C * (-disc A B C * -disc A D C)) =
          disc A B C * disc D B C * disc A D C * disc A B D *
            (disc A D C * disc A D C) := by ring
      rw [hk] at hp
      exact pos_of_mul_sq _ _ hne hp
    · rw [strict_C_iff] at hs
      obtain ⟨hne, h1, h2, h3⟩ := hs
      have hp := mul_pos h1 (mul_pos h2 h3)
      have hk : -disc D B C * disc A B D *
          (-disc A D C * disc A B D * (disc A B C * disc A B D)) =
          disc A B C * disc D B C * disc A D C * disc A B D *
            (disc A B D * disc A B D) := by ring
      rw [hk] at hp
      exact pos_of_mul_sq _ _ hne hp
    · rw [strict_D_iff] at hs
      obtain ⟨hne, h1, h2, h3⟩ := hs
      have hp := mul_pos h1 (mul_pos h2 h3)
      have hk : disc D B C * disc A B C *
          (disc A D C * disc A B C * (disc A B D * disc A B C)) =
          disc A B C * disc D B C * disc A D C * disc A B D *
            (disc A B C * disc A B C) := by ring
      rw [hk] at hp
      exact pos_of_mul_sq _ _ hne hp

/-- Coincident points make some triple of the four collinear. -/
theorem collinear_of_not_distinct (A B C D : Point2D K)
    (h : ¬ pairwiseDistinct A B C D) :
    collinear3 A B C ∨ collinear3 A B D ∨ collinear3 A C D ∨ collinear3 B C D := by
  by_cases h1 : A = B
  · exact Or.inl (collinear3_of_disc_eq_zero _ _ _ (by rw [h1]; exact disc_self12 B C))
  by_cases h2 : A = C
  · exact Or.inl (collinear3_of_disc_eq_zero _ _ _ (by rw [h2]; exact disc_self13 C B))
  by_cases h3 : A = D
  · exact Or.inr (Or.inl (collinear3_of_disc_eq_zero _ _ _
      (by rw [h3]; exact disc_self13 D B)))
  by_cases h4 : B = C
  · exact Or.inl (collinear3_of_disc_eq_zero _ _ _ (by rw [h4]; exact disc_self23 A C))
  by_cases h5 : B = D
  · exact Or.inr (Or.inl (collinear3_of_disc_eq_zero _ _ _
      (by rw [h5]; exact disc_self23 A D)))
  by_cases h6 : C = D
  · exact Or.inr (Or.inr (Or.inl (collinear3_of_disc_eq_zero _ _ _
      (by rw [h6]; exact disc_self23 A D))))
  exact absurd ⟨h1, h2, h3, h4, h5, h6⟩ h

theorem classify_zero_iff (A B C D : Point2D K) :
    classify_points A B C D = 0 ↔ degenerateConfig A B C D := by
  rw [classify_eq_sign, sign_eq_zero_iff, mul_eq_zero, mul_eq_zero, mul_eq_zero]
  simp only [disc_eq_zero_iff_collinear3]
  unfold degenerateConfig
  constructor
  · intro h
    refine Or.inl ?_
    tauto
  · rintro (h | h)
    · tauto
    · have := collinear_of_not_distinct A B C D h
      tauto

/- ------------------------------------------------------------------
Characterization of the simulation loop.
------------------------------------------------------------------ -/

theorem quadCountFirst_succ (pool : List (Point2D K)) (sel : ℕ → Fin 4 → ℕ)
    (m : ℕ) :
    quadCountFirst pool sel (m + 1) =
      quadCountFirst pool sel m + if classifyDraw pool sel m = 1 then 1 else 0 := by
  unfold quadCountFirst
  rw [List.range_succ, List.countP_append]
  simp [List.countP_cons]

theorem quadCountFirst_le (pool : List (Point2D K)) (sel : ℕ → Fin 4 → ℕ)
    (m : ℕ) : quadCountFirst pool sel m ≤ m := by
  calc quadCountFirst pool sel m ≤ (List.range m).length :=
        List.countP_le_length _
    _ = m := List.length_range m

theorem quadCountFirst_mono (pool : List (Point2D K)) (sel : ℕ → Fin 4 → ℕ)
    (m : ℕ) : quadCountFirst pool sel m ≤ quadCountFirst pool sel (m + 1) := by
  rw [quadCountFirst_succ]
  exact Nat.le_add_right _ _

/-- One unfolding of the loop when the pool is large enough. -/
theorem simulateLoop_succ (pool : List (Point2D K)) (sel : ℕ → Fin 4 → ℕ)
    (hpool : ¬ pool.length < 4) (rem q t : ℕ) (acc : List K) :
    simulateLoop pool sel (rem + 1) q t acc =
      simulateLoop pool sel rem
        (if classifyDraw pool sel t = 1 then q + 1 else q) (t + 1)
        (acc ++ [((if classifyDraw pool sel t = 1 then q + 1 else q : ℕ) : K) /
          ((t + 1 : ℕ) : K)]) := by
  simp only [simulateLoop, sample4, if_neg hpool, pick4, classifyDraw]

/-- The loop invariant: starting at iteration `t` with the correct running
numerator, the loop appends exactly the tail of running estimates. -/
theorem simulateLoop_spec (pool : List (Point2D K)) (sel : ℕ → Fin 4 → ℕ)
    (hpool : ¬ pool.length < 4) :
    ∀ (rem t : ℕ) (acc : List K),
      simulateLoop pool sel rem (quadCountFirst pool sel t) t acc =
        .ok (acc ++ (List.range rem).map
          (fun j => (quadCountFirst pool sel (t + j + 1) : K) /
            ((t + j + 1 : ℕ) : K))) := by
  intro rem
  induction rem with
  | zero =>
    intro t acc
    simp [simulateLoop]
  | succ n ih =>
    intro t acc
    rw [simulateLoop_succ pool sel hpool]
    have hq : (if classifyDraw pool sel t = 1 then quadCountFirst pool sel t + 1
        else quadCountFirst pool sel t) = quadCountFirst pool sel (t + 1) := by
      rw [quadCountFirst_succ]
      split <;> omega
    rw [hq, ih (t + 1)]
    congr 1
    rw [List.range_succ_eq_map, List.map_cons, List.map_map]
    have hmap : (List.range n).map
        (fun j => (quadCountFirst pool sel (t + 1 + j + 1) : K) /
          ((t + 1 + j + 1 : ℕ) : K)) =
        (List.range n).map
          ((fun j => (quadCountFirst pool sel (t + j + 1) : K) /
            ((t + j + 1 : ℕ) : K)) ∘ Nat.succ) := by
      apply List.map_congr_left
      intro j _
      have harith : t + 1 + j + 1 = t + Nat.succ j + 1 := by omega
      simp only [Function.comp]
      rw [harith]
    rw [hmap]
    have hzero : t + 0 + 1 = t + 1 := by omega
    simp only [hzero]
    rw [List.append_assoc]
    rfl

/-- For `N ≥ 4` the run succeeds and returns exactly the running
estimates. -/
theorem simulate_spec (args : Namespace) (pts : ℕ → Point2D K)
    (sel : ℕ → Fin 4 → ℕ) (h4 : 4 ≤ args.num) :
    simulate args pts sel = .ok (runEstimates args pts sel) := by
  have hpool : ¬ (poolOf args pts).length < 4 := by
    unfold poolOf
    simp only [List.length_map, List.length_range]
    omega
  have hmain := simulateLoop_spec (poolOf args pts) sel hpool args.num 0 []
  calc simulate args pts sel
      = .ok ([] ++ (List.range args.num).map
          (fun j => (quadCountFirst (poolOf args pts) sel (0 + j + 1) : K) /
            ((0 + j + 1 : ℕ) : K))) := hmain
    _ = .ok (runEstimates args pts sel) := by
        unfold runEstimates
        simp

/-- For `1 ≤ N < 4` the run fails with the `random.sample` ValueError,
raised inside the first loop iteration (after the pool was generated). -/
theorem simulate_err (args : Namespace) (pts : ℕ → Point2D K)
    (sel : ℕ → Fin 4 → ℕ) (h1 : 1 ≤ args.num) (h4 : args.num < 4) :
    simulate args pts sel = .error .sampleLargerThanPopulation := by
  unfold simulate
  obtain ⟨m, hm⟩ : ∃ m, args.num = m + 1 := ⟨args.num - 1, by omega⟩
  have hlen : ((List.range args.num).map pts).length < 4 := by simpa using h4
  rw [hm] at hlen
  rw [hm]
  simp only [simulateLoop, sample4, if_pos hlen]

/-- For `N = 0` the loop body never runs and the run silently returns an
empty list. -/
theorem simulate_zero (args : Namespace) (pts : ℕ → Point2D K)
    (sel : ℕ → Fin 4 → ℕ) (h0 : args.num = 0) :
    simulate args pts sel = .ok [] := by
  unfold simulate
  rw [h0]
  rfl

/- ------------------------------------------------------------------
Permutation invariance of the classification.
------------------------------------------------------------------ -/

theorem classify_swap01 (A B C D : Point2D K) :
    classify_points B A C D = classify_points A B C D := by
  unfold classify_points orientation
  rw [disc_swap12 A B C, disc_swap12 A B D, sign_neg, sign_neg]
  ring

theorem classify_swap12s (A B C D : Point2D K) :
    classify_points A C B D = classify_points A B C D := by
  unfold classify_points orientation
  rw [disc_swap23 A B C, disc_swap12 B C D, sign_neg, sign_neg]
  ring

theorem classify_swap23s (A B C D : Point2D K) :
    classify_points A B D C = classify_points A B C D := by
  unfold classify_points orientation
  rw [disc_swap23 A C D, disc_swap23 B C D, sign_neg, sign_neg]
  ring

theorem classify_swap02 (A B C D : Point2D K) :
    classify_points C B A D = classify_points A B C D := by
  calc classify_points C B A D = classify_points B C A D := classify_swap01 B C A D
    _ = classify_points B A C D := classify_swap12s B A C D
    _ = classify_points A B C D := classify_swap01 A B C D

theorem classify_swap03 (A B C D : Point2D K) :
    classify_points D B C A = classify_points A B C D := by
  calc classify_points D B C A = classify_points B D C A := classify_swap01 B D C A
    _ = classify_points B C D A := classify_swap12s B C D A
    _ = classify_points B C A D := classify_swap23s B C A D
    _ = classify_points B A C D := classify_swap12s B A C D
    _ = classify_points A B C D := classify_swap01 A B C D

theorem classify_swap13 (A B C D : Point2D K) :
    classify_points A D C B = classify_points A B C D := by
  calc classify_points A D C B = classify_points A C D B := classify_swap12s A C D B
    _ = classify_points A C B D := classify_swap23s A C B D
    _ = classify_points A B C D := classify_swap12s A B C D

theorem classify_comp_swap (p : Fin 4 → Point2D K) (x y : Fin 4) :
    classify_points (p (Equiv.swap x y 0)) (p (Equiv.swap x y 1))
      (p (Equiv.swap x y 2)) (p (Equiv.swap x y 3)) =
      classify_points (p 0) (p 1) (p 2) (p 3) := by
  fin_cases x <;> fin_cases y <;>
    first
      | rfl
      | exact classify_swap01 (p 0) (p 1) (p 2) (p 3)
      | exact classify_swap12s (p 0) (p 1) (p 2) (p 3)
      | exact classify_swap23s (p 0) (p 1) (p 2) (p 3)
      | exact classify_swap02 (p 0) (p 1) (p 2) (p 3)
      | exact classify_swap03 (p 0) (p 1) (p 2) (p 3)
      | exact classify_swap13 (p 0) (p 1) (p 2) (p 3)

/-- The classification depends only on the set of the four points:
it is invariant under every permutation of the arguments. -/
theorem classify_points_perm (σ : Equiv.Perm (Fin 4)) :
    ∀ p : Fin 4 → Point2D K,
      classify_points (p (σ 0)) (p (σ 1)) (p (σ 2)) (p (σ 3)) =
        classify_points (p 0) (p 1) (p 2) (p 3) := by
  refine Equiv.Perm.swap_induction_on σ ?_ ?_
  · intro p
    rfl
  · intro f x y _ ih p
    have hstep := ih (fun i => p (Equiv.swap x y i))
    refine Eq.trans ?_ ((hstep.trans (classify_comp_swap p x y)))
    rfl

/- ------------------------------------------------------------------
Runs with a pool of exactly 4 points.
------------------------------------------------------------------ -/

theorem poolOf_length (args : Namespace) (pts : ℕ → Point2D K) :
    (poolOf args pts).length = args.num := by
  simp [poolOf]

theorem poolOf_getD (args : Namespace) (pts : ℕ → Point2D K) (k : ℕ)
    (hk : k < args.num) : (poolOf args pts).getD k ⟨0, 0⟩ = pts k := by
  unfold poolOf
  rw [List.getD_eq_getElem _ _ (by simpa using hk)]
  simp

/-- With a pool of exactly 4 points and a draw without replacement (the
chosen indices are pairwise distinct modulo the pool size, as
`random.sample` guarantees), every draw is a permutation of the pool, so
every iteration classifies the same four points. -/
theorem classifyDraw_four (pts : ℕ → Point2D K) (sel : ℕ → Fin 4 → ℕ)
    (hsel : ∀ t (i j : Fin 4), sel t i % 4 = sel t j % 4 → i = j) (t : ℕ) :
    classifyDraw (poolOf ⟨4, false, false⟩ pts) sel t =
      classify_points (pts 0) (pts 1) (pts 2) (pts 3) := by
  have hlen : (poolOf ⟨4, false, false⟩ pts).length = 4 :=
    poolOf_length ⟨4, false, false⟩ pts
  have hmod : ∀ i : Fin 4, sel t i % 4 < 4 := fun i => Nat.mod_lt _ (by norm_num)
  have hinj : Function.Injective
      (fun i : Fin 4 => (⟨sel t i % 4, hmod i⟩ : Fin 4)) := by
    intro i j hij
    exact hsel t i j (congrArg Fin.val hij)
  have hbij := Finite.injective_iff_bijective.mp hinj
  have hgd : ∀ i : Fin 4,
      (poolOf ⟨4, false, false⟩ pts).getD
        (sel t i % (poolOf ⟨4, false, false⟩ pts).length) ⟨0, 0⟩ =
      (fun k : Fin 4 => pts k.val) (Equiv.ofBijective _ hbij i) := by
    intro i
    rw [hlen, poolOf_getD ⟨4, false, false⟩ pts _ (hmod i)]
    rfl
  unfold classifyDraw pick4
  simp only []
  rw [hgd 0, hgd 1, hgd 2, hgd 3]
  exact classify_points_perm (Equiv.ofBijective _ hbij) (fun k : Fin 4 => pts k.val)

/-- An N = 4 run: four iterations, each classifying the same four points
(in some order), so the output is four copies of 1 or four copies of 0. -/
theorem simulate_four_run (pts : ℕ → Point2D K) (sel : ℕ → Fin 4 → ℕ)
    (hsel : ∀ t (i j : Fin 4), sel t i % 4 = sel t j % 4 → i = j) :
    simulate ⟨4, false, false⟩ pts sel =
      .ok [if classify_points (pts 0) (pts 1) (pts 2) (pts 3) = 1 then (1 : K) else 0,
        if classify_points (pts 0) (pts 1) (pts 2) (pts 3) = 1 then (1 : K) else 0,
        if classify_points (pts 0) (pts 1) (pts 2) (pts 3) = 1 then (1 : K) else 0,
        if classify_points (pts 0) (pts 1) (pts 2) (pts 3) = 1 then (1 : K) else 0] := by
  have hspec := simulate_spec ⟨4, false, false⟩ pts sel (by norm_num)
  rw [hspec]
  congr 1
  have hcnt : ∀ m, quadCountFirst (poolOf ⟨4, false, false⟩ pts) sel m =
      if classify_points (pts 0) (pts 1) (pts 2) (pts 3) = 1 then m else 0 := by
    intro m
    induction m with
    | zero =>
      split <;> rfl
    | succ n ihn =>
      rw [quadCountFirst_succ, ihn, classifyDraw_four pts sel hsel n]
      split <;> simp
  unfold runEstimates
  have h4 : List.range 4 = [0, 1, 2, 3] := rfl
  rw [h4]
  simp only [List.map_cons, List.map_nil, hcnt]
  by_cases hP : classify_points (pts 0) (pts 1) (pts 2) (pts 3) = 1
  · simp only [hP, if_true]
    norm_num
  · simp only [hP, if_false]
    norm_num

/-- Concrete run: pool of the four unit-square corners, identity draws. -/
theorem simulate_square_eval :
    simulate ⟨4, false, false⟩ ptsSquare selId = .ok [1, 1, 1, 1] := by
  have hsel : ∀ t (i j : Fin 4), selId t i % 4 = selId t j % 4 → i = j := by
    intro t i j h
    unfold selId at h
    rw [Nat.mod_eq_of_lt i.isLt, Nat.mod_eq_of_lt j.isLt] at h
    exact Fin.ext h
  have hcl : classify_points (ptsSquare 0) (ptsSquare 1) (ptsSquare 2)
      (ptsSquare 3) = 1 := by
    norm_num [ptsSquare, classify_points, orientation, disc, sign]
  rw [simulate_four_run ptsSquare selId hsel]
  simp [hcl]

/-- Concrete run: pool of a triangle configuration, identity draws. -/
theorem simulate_triangle_eval :
    simulate ⟨4, false, false⟩ ptsTriangleConfig selId = .ok [0, 0, 0, 0] := by
  have hsel : ∀ t (i j : Fin 4), selId t i % 4 = selId t j % 4 → i = j := by
    intro t i j h
    unfold selId at h
    rw [Nat.mod_eq_of_lt i.isLt, Nat.mod_eq_of_lt j.isLt] at h
    exact Fin.ext h
  have hcl : classify_points (ptsTriangleConfig 0) (ptsTriangleConfig 1)
      (ptsTriangleConfig 2) (ptsTriangleConfig 3) = -1 := by
    norm_num [ptsTriangleConfig, classify_points, orientation, disc, sign]
  rw [simulate_four_run ptsTriangleConfig selId hsel]
  simp [hcl]

/-- The identity selection is a draw without replacement. -/
theorem selId_distinct : ∀ t (i j : Fin 4), selId t i % 4 = selId t j % 4 → i = j := by
  intro t i j h
  unfold selId at h
  rw [Nat.mod_eq_of_lt i.isLt, Nat.mod_eq_of_lt j.isLt] at h
  exact Fin.ext h

/- ==================================================================
Claim theorems.
================================================================== -/

/-- C1: `classify_points(A,B,C,D)` returns +1 iff the convex hull of the
four points is a quadrilateral (all four points are hull vertices, i.e. no
point lies in the convex hull of the other three), returns -1 iff the hull
is a triangle (exactly one point lies strictly inside the triangle formed
by the other three), and returns 0 iff some three of the four points are
collinear or fewer than four distinct points are present. -/
theorem mc_classify_hull (A B C D : Point2D ℝ) :
    (classify_points A B C D = 1 ↔ hullIsQuadrilateral A B C D) ∧
      (classify_points A B C D = -1 ↔ hullIsTriangle A B C D) ∧
      (classify_points A B C D = 0 ↔ degenerateConfig A B C D) :=
  ⟨classify_one_iff A B C D, classify_neg_one_iff A B C D,
    classify_zero_iff A B C D⟩

/-- C2: for every run with N ≥ 4, the result sequence has length exactly N
and its i-th element (1-indexed) is the number of draws among the first i
draws classified +1, divided by i. -/
theorem mc_running_estimate (args : Namespace) (pts : ℕ → Point2D K)
    (sel : ℕ → Fin 4 → ℕ) (h4 : 4 ≤ args.num) :
    ∃ results : List K, simulate args pts sel = .ok results ∧
      results.length = args.num ∧
      ∀ i : ℕ, 1 ≤ i → i ≤ args.num →
        results.getD (i - 1) 0 =
          (quadCountFirst (poolOf args pts) sel i : K) / (i : K) := by
  refine ⟨runEstimates args pts sel, simulate_spec args pts sel h4, ?_, ?_⟩
  · simp [runEstimates]
  · intro i h1 hN
    unfold runEstimates
    rw [List.getD_eq_getElem _ _ (by simp; omega)]
    rw [List.getElem_map, List.getElem_range]
    have hi : i - 1 + 1 = i := by omega
    rw [hi]

/-- C2 witness at a concrete run. -/
theorem mc_running_estimate_witness :
    (4 : ℕ) ≤ 4 ∧
      ∃ results : List ℚ,
        simulate ⟨4, false, false⟩ ptsSquare selId = .ok results ∧
        results.length = 4 ∧
        ∀ i : ℕ, 1 ≤ i → i ≤ 4 →
          results.getD (i - 1) 0 =
            (quadCountFirst (poolOf ⟨4, false, false⟩ ptsSquare) selId i : ℚ) /
              (i : ℚ) :=
  ⟨by norm_num,
    mc_running_estimate ⟨4, false, false⟩ ptsSquare selId (by norm_num)⟩

/-- C3 (the claim is the spec's stated requirement; the code violates it):
for N < 4 the code raises no configuration error at all.  For 1 ≤ N < 4 it
builds the pool (sampling does occur) and then crashes inside the first
loop iteration with the `random.sample` ValueError; for N = 0 it silently
returns an empty result list. -/
theorem mc_smallN_behavior (args : Namespace) (pts : ℕ → Point2D K)
    (sel : ℕ → Fin 4 → ℕ) (hlt : args.num < 4) :
    (1 ≤ args.num →
      simulate args pts sel = .error .sampleLargerThanPopulation) ∧
      (args.num = 0 → simulate args pts sel = .ok []) :=
  ⟨fun h1 => simulate_err args pts sel h1 hlt,
    fun h0 => simulate_zero args pts sel h0⟩

/-- C3 witness at concrete runs N = 3 and N = 0. -/
theorem mc_smallN_behavior_witness :
    (3 : ℕ) < 4 ∧ (0 : ℕ) < 4 ∧
      simulate (K := ℚ) ⟨3, false, false⟩ ptsSquare selId =
        .error .sampleLargerThanPopulation ∧
      simulate (K := ℚ) ⟨0, false, false⟩ ptsSquare selId = .ok [] :=
  ⟨by norm_num, by norm_num,
    (mc_smallN_behavior ⟨3, false, false⟩ ptsSquare selId (by norm_num)).1
      (by norm_num),
    (mc_smallN_behavior ⟨0, false, false⟩ ptsSquare selId (by norm_num)).2 rfl⟩

/-- C4 (the claim is the spec's stated requirement; the code violates it):
the `--seed` flag parsed into the Namespace has no effect whatsoever on
the run (the code never reads it and never calls `random.seed`), while the
output does depend on the ambient random stream, which no parameter of the
program controls.  Hence two runs with identical arguments and seed flag
are not reproducible: identical output would require an explicit generator,
which the code does not have. -/
theorem mc_seed_no_effect :
    (∀ (pts : ℕ → Point2D ℚ) (sel : ℕ → Fin 4 → ℕ) (n : ℕ) (v1 v2 s1 s2 : Bool),
      simulate ⟨n, v1, s1⟩ pts sel = simulate ⟨n, v2, s2⟩ pts sel) ∧
      simulate ⟨4, false, true⟩ ptsSquare selId ≠
        simulate ⟨4, false, true⟩ ptsTriangleConfig selId := by
  constructor
  · intro pts sel n v1 v2 s1 s2
    rfl
  · intro hcontra
    have h1 : simulate ⟨4, false, true⟩ ptsSquare selId = .ok [1, 1, 1, 1] :=
      simulate_square_eval
    have h2 : simulate ⟨4, false, true⟩ ptsTriangleConfig selId =
        .ok [0, 0, 0, 0] := simulate_triangle_eval
    rw [h1, h2] at hcontra
    simp at hcontra

/-- C5: for every triangle ABC and r1, r2 in [0,1), the sampler (which is a
total function: no failure modes) returns exactly
`A*(1-s1) + B*(1-r2)*s1 + C*r2*s1` with `s1 = sqrt r1`, and the returned
point lies in the closed triangle ABC. -/
theorem mc_sampler_spec (A B C : Point2D ℝ) (r1 r2 : ℝ)
    (h1 : 0 ≤ r1) (h2 : r1 < 1) (h3 : 0 ≤ r2) (h4 : r2 < 1) :
    sample_triangle_points A B C r1 r2 =
        combo3 (1 - Real.sqrt r1) ((1 - r2) * Real.sqrt r1)
          (r2 * Real.sqrt r1) A B C ∧
      inClosedTri (sample_triangle_points A B C r1 r2) A B C := by
  have hs0 : 0 ≤ Real.sqrt r1 := Real.sqrt_nonneg r1
  have hs1 : Real.sqrt r1 ≤ 1 := by
    calc Real.sqrt r1 ≤ Real.sqrt 1 := Real.sqrt_le_sqrt (by linarith)
      _ = 1 := Real.sqrt_one
  have hcombo : sample_triangle_points A B C r1 r2 =
      combo3 (1 - Real.sqrt r1) ((1 - r2) * Real.sqrt r1)
        (r2 * Real.sqrt r1) A B C := by
    unfold sample_triangle_points combo3
    ext
    · show A.x * (1 - Real.sqrt r1) + B.x * (1 - r2) * Real.sqrt r1 +
        C.x * r2 * Real.sqrt r1 = _
      ring
    · show A.y * (1 - Real.sqrt r1) + B.y * (1 - r2) * Real.sqrt r1 +
        C.y * r2 * Real.sqrt r1 = _
      ring
  refine ⟨hcombo, 1 - Real.sqrt r1, (1 - r2) * Real.sqrt r1,
    r2 * Real.sqrt r1, ?_, ?_, ?_, ?_, hcombo⟩
  · linarith
  · exact mul_nonneg (by linarith) hs0
  · exact mul_nonneg h3 hs0
  · ring

/-- C5 witness at a concrete sample. -/
theorem mc_sampler_spec_witness :
    (0 : ℝ) ≤ 1 / 4 ∧ (1 / 4 : ℝ) < 1 ∧ (0 : ℝ) ≤ 1 / 2 ∧ (1 / 2 : ℝ) < 1 ∧
      (sample_triangle_points ⟨0, 0⟩ ⟨1, 0⟩ ⟨0, 1⟩ (1 / 4) (1 / 2) =
          combo3 (1 - Real.sqrt (1 / 4)) ((1 - 1 / 2) * Real.sqrt (1 / 4))
            (1 / 2 * Real.sqrt (1 / 4)) ⟨0, 0⟩ ⟨1, 0⟩ ⟨0, 1⟩ ∧
        inClosedTri (sample_triangle_points ⟨0, 0⟩ ⟨1, 0⟩ ⟨0, 1⟩ (1 / 4) (1 / 2))
          ⟨0, 0⟩ ⟨1, 0⟩ ⟨0, 1⟩) :=
  ⟨by norm_num, by norm_num, by norm_num, by norm_num,
    mc_sampler_spec ⟨0, 0⟩ ⟨1, 0⟩ ⟨0, 1⟩ (1 / 4) (1 / 2)
      (by norm_num) (by norm_num) (by norm_num) (by norm_num)⟩

/-- C6: `orientation(A,B,C)` equals the sign of the determinant
`(A.x-C.x)*(B.y-C.y) - (A.y-C.y)*(B.x-C.x)`: it returns +1 exactly when
the determinant is positive (the counterclockwise side, which is how the
spec's glossary defines turn direction), -1 exactly when negative
(clockwise), and 0 exactly when the determinant is exactly zero — no
epsilon tolerance — which includes every case of coincident points. -/
theorem mc_orientation_spec (A B C : Point2D ℝ) :
    orientation A B C =
        sign ((A.x - C.x) * (B.y - C.y) - (A.y - C.y) * (B.x - C.x)) ∧
      (orientation A B C = 1 ↔
        0 < (A.x - C.x) * (B.y - C.y) - (A.y - C.y) * (B.x - C.x)) ∧
      (orientation A B C = -1 ↔
        (A.x - C.x) * (B.y - C.y) - (A.y - C.y) * (B.x - C.x) < 0) ∧
      (orientation A B C = 0 ↔
        (A.x - C.x) * (B.y - C.y) - (A.y - C.y) * (B.x - C.x) = 0) ∧
      orientation A A C = 0 ∧ orientation A B B = 0 ∧ orientation A B A = 0 := by
  refine ⟨rfl, sign_eq_one_iff _, sign_eq_neg_one_iff _, sign_eq_zero_iff _,
    ?_, ?_, ?_⟩
  · show sign (disc A A C) = 0
    rw [disc_self12]
    simp [sign]
  · show sign (disc A B B) = 0
    rw [disc_self23]
    simp [sign]
  · show sign (disc A B A) = 0
    rw [disc_self13]
    simp [sign]

/-- C7: orientation is antisymmetric under swapping either the first two
or the last two arguments. -/
theorem mc_orientation_antisymm (A B C : Point2D ℝ) :
    orientation A B C = -orientation B A C ∧
      orientation A B C = -orientation A C B := by
  constructor
  · show sign (disc A B C) = -sign (disc B A C)
    rw [disc_swap12 A B C, sign_neg, neg_neg]
  · show sign (disc A B C) = -sign (disc A C B)
    rw [disc_swap23 A B C, sign_neg, neg_neg]

/-- C8: every element of a successful run's result sequence lies in [0,1],
the product of the i-th element (0-indexed here, so denominator i+1) with
its denominator is a non-negative integer at most the denominator, and the
implicit cumulative numerator is non-decreasing along the sequence. -/
theorem mc_estimate_invariants (args : Namespace) (pts : ℕ → Point2D K)
    (sel : ℕ → Fin 4 → ℕ) (results : List K)
    (hok : simulate args pts sel = .ok results) :
    (∀ i : ℕ, i < results.length →
      0 ≤ results.getD i 0 ∧ results.getD i 0 ≤ 1 ∧
        ∃ m : ℕ, results.getD i 0 * ((i + 1 : ℕ) : K) = (m : K) ∧ m ≤ i + 1) ∧
      ∀ i : ℕ, i + 1 < results.length →
        results.getD i 0 * ((i + 1 : ℕ) : K) ≤
          results.getD (i + 1) 0 * ((i + 2 : ℕ) : K) := by
  by_cases h4 : 4 ≤ args.num
  · have hres : results = runEstimates args pts sel :=
      Except.ok.inj (hok.symm.trans (simulate_spec args pts sel h4))
    subst hres
    have hgd : ∀ i : ℕ, i < args.num →
        (runEstimates args pts sel).getD i 0 =
          (quadCountFirst (poolOf args pts) sel (i + 1) : K) /
            ((i + 1 : ℕ) : K) := by
      intro i hiN
      unfold runEstimates
      rw [List.getD_eq_getElem _ _ (by simpa using hiN)]
      simp
    have hlen : (runEstimates args pts sel).length = args.num := by
      simp [runEstimates]
    constructor
    · intro i hi
      rw [hlen] at hi
      rw [hgd i hi]
      have hpos : (0 : K) < ((i + 1 : ℕ) : K) := by
        exact_mod_cast Nat.succ_pos i
      refine ⟨div_nonneg (by positivity) hpos.le, ?_,
        quadCountFirst (poolOf args pts) sel (i + 1), ?_, ?_⟩
      · rw [div_le_one hpos]
        exact_mod_cast quadCountFirst_le (poolOf args pts) sel (i + 1)
      · exact div_mul_cancel₀ _ hpos.ne.symm
      · exact quadCountFirst_le (poolOf args pts) sel (i + 1)
    · intro i hi
      rw [hlen] at hi
      rw [hgd i (by omega), hgd (i + 1) (by omega)]
      have hp1 : (0 : K) < ((i + 1 : ℕ) : K) := by
        exact_mod_cast Nat.succ_pos i
      have hp2 : (0 : K) < ((i + 2 : ℕ) : K) := by
        exact_mod_cast Nat.succ_pos (i + 1)
      rw [div_mul_cancel₀ _ hp1.ne.symm, div_mul_cancel₀ _ hp2.ne.symm]
      exact_mod_cast quadCountFirst_mono (poolOf args pts) sel (i + 1)
  · have hsplit : args.num = 0 ∨ (1 ≤ args.num ∧ args.num < 4) := by omega
    rcases hsplit with h0 | ⟨h1, hlt⟩
    · have hres : results = [] :=
        Except.ok.inj (hok.symm.trans (simulate_zero args pts sel h0))
      subst hres
      exact ⟨fun i hi => absurd hi (by simp), fun i hi => absurd hi (by simp)⟩
    · exact absurd (hok.symm.trans (simulate_err args pts sel h1 hlt)) (by simp)

/-- C8 witness at a concrete run. -/
theorem mc_estimate_invariants_witness :
    simulate ⟨4, false, false⟩ ptsSquare selId = .ok [1, 1, 1, 1] ∧
      ((∀ i : ℕ, i < ([1, 1, 1, 1] : List ℚ).length →
        0 ≤ ([1, 1, 1, 1] : List ℚ).getD i 0 ∧
          ([1, 1, 1, 1] : List ℚ).getD i 0 ≤ 1 ∧
          ∃ m : ℕ, ([1, 1, 1, 1] : List ℚ).getD i 0 * ((i + 1 : ℕ) : ℚ) =
            (m : ℚ) ∧ m ≤ i + 1) ∧
        ∀ i : ℕ, i + 1 < ([1, 1, 1, 1] : List ℚ).length →
          ([1, 1, 1, 1] : List ℚ).getD i 0 * ((i + 1 : ℕ) : ℚ) ≤
            ([1, 1, 1, 1] : List ℚ).getD (i + 1) 0 * ((i + 2 : ℕ) : ℚ)) :=
  ⟨simulate_square_eval,
    mc_estimate_invariants ⟨4, false, false⟩ ptsSquare selId [1, 1, 1, 1]
      simulate_square_eval⟩

/-- C9 counterexample: the claim says an N = 4 run produces a result
sequence of length exactly 1, but a concrete N = 4 run produces a sequence
of length 4. -/
theorem mc_N4_length_cex :
    ∃ results : List ℚ,
      simulate ⟨4, false, false⟩ ptsSquare selId = .ok results ∧
        results.length ≠ 1 :=
  ⟨[1, 1, 1, 1], simulate_square_eval, by norm_num⟩

/-- C9 (amended): a run with N = 4 produces a result sequence of length
exactly 4 (= N); since every draw without replacement from a 4-point pool
contains the same four points, every element is the same value, 0 or 1
according to the classification of the pool's four points — never an
intermediate value. -/
theorem mc_N4_boundary (pts : ℕ → Point2D K) (sel : ℕ → Fin 4 → ℕ)
    (hsel : ∀ t (i j : Fin 4), sel t i % 4 = sel t j % 4 → i = j) :
    ∃ v : K, simulate ⟨4, false, false⟩ pts sel = .ok [v, v, v, v] ∧
      (v = 0 ∨ v = 1) ∧
      (v = 1 ↔ classify_points (pts 0) (pts 1) (pts 2) (pts 3) = 1) := by
  by_cases hP : classify_points (pts 0) (pts 1) (pts 2) (pts 3) = 1
  · refine ⟨1, ?_, Or.inr rfl, by simp [hP]⟩
    rw [simulate_four_run pts sel hsel]
    simp [hP]
  · refine ⟨0, ?_, Or.inl rfl, by simp [hP]⟩
    rw [simulate_four_run pts sel hsel]
    simp [hP]

/-- C9 witness at a concrete run. -/
theorem mc_N4_boundary_witness :
    (∀ t (i j : Fin 4), selId t i % 4 = selId t j % 4 → i = j) ∧
      ∃ v : ℚ, simulate ⟨4, false, false⟩ ptsSquare selId = .ok [v, v, v, v] ∧
        (v = 0 ∨ v = 1) ∧
        (v = 1 ↔ classify_points (ptsSquare 0) (ptsSquare 1) (ptsSquare 2)
          (ptsSquare 3) = 1) :=
  ⟨selId_distinct, mc_N4_boundary ptsSquare selId selId_distinct⟩

/-- C10: the classification depends only on the set of the four points:
for every permutation of the four arguments, `classify_points` returns the
same value. -/
theorem mc_classify_perm_invariant (p : Fin 4 → Point2D ℝ)
    (σ : Equiv.Perm (Fin 4)) :
    classify_points (p (σ 0)) (p (σ 1)) (p (σ 2)) (p (σ 3)) =
      classify_points (p 0) (p 1) (p 2) (p 3) :=
  classify_points_perm σ p

end MonteCarlo
